import Mathlib

/-!
# Verification of the resource-resolution core of the `jsonschema` crate

Shallow embedding of `src/root.rs` (the `Root`/`Resource` graph and its
resolution functions) and of `src/builder/schema_builder.rs` (the builder DSL),
together with proofs about their behaviour.

Rust strings are modelled as Lean `String`s; JSON pointers, which the Rust code
manipulates character-by-character (`rsplit_once('/')`), are modelled as their
escaped character sequences (`List Char`), which is the same data as the Rust
`String` underlying `JsonPointer`.  `HashMap` fields are modelled as
association lists: lookup finds the first binding, insertion of a fresh key
prepends, and in-place mutation of an existing binding replaces it; iteration
order of `values()` is modelled by list order (the Rust `HashMap` order is
unspecified, and no theorem below depends on a particular order beyond
existence).  Fallible Rust functions returning `Result<T, CompileError>` become
`Except CompileError T`; functions mutating `&mut self` additionally return the
post-state, which on error retains all mutations made before the failure, as in
Rust.

Types and functions from files of this repository that are not under `src/`
(`util.rs`, `draft.rs`, `compiler.rs`) are modelled from the spec; each such
definition carries a doc comment starting `Modelled from the spec:`.
-/

set_option autoImplicit false

namespace JsonSchema

/-- Modelled from the spec: a URL (the `url` crate's `Url` in `util.rs` usage),
kept abstract as its string rendering; the code only clones, compares and
displays URLs in the parts verified here. -/
abbrev Url := String

/-- Modelled from the spec: `JsonPointer` (util.rs, not in src/) is an
RFC-6901 root-relative path in its escaped string form: `/`-separated segments
with `~` written `~0` and `/` written `~1`; the empty pointer denotes the
document root.  Represented by the character sequence of that string. -/
abbrev JsonPointer := List Char

/-- A JSON value tree, as produced by `serde_json`. -/
inductive Value where
  | null
  | bool (b : Bool)
  | num (n : Int)
  | str (s : String)
  | arr (elems : List Value)
  | obj (fields : List (String × Value))

/-- Modelled from the spec: the `CompileError` taxonomy (compiler.rs, not in
src/), restricted to the kinds reachable from the code verified here:
structural pointer-lookup failure, malformed identifier/anchor values,
duplicate anchors, dynamic anchors under a draft that forbids them,
`AnchorNotFound` (carrying document URL and reference text, as constructed in
`root.rs`), and the internal-invariant `Bug` kind. -/
inductive CompileError where
  | JsonPointerNotFound (url : String) (ptr : String)
  | InvalidId (url : String) (ptr : String)
  | InvalidAnchor (url : String) (ptr : String)
  | DuplicateAnchor (anchor : String) (url : String) (ptr : String)
  | UnsupportedDynamicAnchor (url : String) (ptr : String)
  | AnchorNotFound (url : String) (reference : String)
  | Bug (msg : String)
deriving Repr, DecidableEq

/-- Modelled from the spec: `Fragment` (util.rs, not in src/) is a sum of a
named anchor and a JSON pointer, parsed from the fragment part of a
reference. -/
inductive Fragment where
  | Anchor (name : String)
  | JsonPointer (p : List Char)
deriving Repr, DecidableEq

/-- Modelled from the spec: `Fragment::as_str` renders the fragment as the text
it was parsed from: the bare anchor name, or the pointer string. -/
def Fragment.as_str : Fragment → String
  | .Anchor name => name
  | .JsonPointer p => String.mk p

/-- Modelled from the spec: `UrlPtr` (util.rs, not in src/) pairs an absolute
document URL with a resolved pointer. -/
structure UrlPtr where
  url : Url
  ptr : JsonPointer
deriving Repr, DecidableEq

/-- Modelled from the spec: `UrlFrag` (util.rs, not in src/) pairs an absolute
base URL with a parsed fragment. -/
structure UrlFrag where
  url : Url
  frag : Fragment
deriving Repr, DecidableEq

/-- Modelled from the spec: `UrlFrag::format` (util.rs, not in src/) renders a
base URL and a fragment string as the reference text `url#fragment`. -/
def UrlFrag.format (url : Url) (frag : String) : String := url ++ "#" ++ frag

/-- `Resource` from `root.rs`: one addressable scope — its pointer-from-root,
its effective base URL, its static anchors (name to pointer-from-root) and its
dynamic anchors. -/
structure Resource where
  ptr : JsonPointer
  id : Url
  anchors : List (String × JsonPointer)
  dynamic_anchors : List String
deriving Repr, DecidableEq

/-- `Resource::new` from `root.rs`. -/
def Resource.new (ptr : JsonPointer) (id : Url) : Resource :=
  { ptr := ptr, id := id, anchors := [], dynamic_anchors := [] }

/-- Modelled from the spec: the `Draft` strategy record (draft.rs, not in
src/), reduced to the fields the verified code consults: the version number and
the built-in default vocabulary set. -/
structure Draft where
  version : Nat
  default_vocabs : List String
deriving Repr, DecidableEq

/-- The `resources` map of a `Root` (`HashMap<JsonPointer, Resource>`),
modelled as an association list keyed by pointer. -/
abbrev Resources := List (JsonPointer × Resource)

/-- `HashMap::get` on the resources map: the first binding of the key. -/
def getRes : Resources → JsonPointer → Option Resource
  | [], _ => none
  | (k, res) :: rest, p => if k = p then some res else getRes rest p

/-- `HashMap::contains_key` on the resources map. -/
def containsKey (m : Resources) (p : JsonPointer) : Bool := (getRes m p).isSome

/-- Mutation through `HashMap::get_mut`: replace the first binding of an
existing key, leave the map unchanged when the key is absent. -/
def setKey : Resources → JsonPointer → Resource → Resources
  | [], _, _ => []
  | (k, res) :: rest, p, res' =>
      if k = p then (k, res') :: rest else (k, res) :: setKey rest p res'

/-- `Root` from `root.rs`: one parsed document's draft, resource graph, URL and
explicit meta-schema vocabulary list. -/
structure Root where
  draft : Draft
  resources : Resources
  url : Url
  meta_vocabs : Option (List String)

/-- `Root::has_vocab` from `root.rs`. -/
def Root.has_vocab (r : Root) (name : String) : Bool :=
  if r.draft.version < 2019 || name == "core" then
    true
  else
    match r.meta_vocabs with
    | some vocabs => vocabs.any (fun s => s == name)
    | none => r.draft.default_vocabs.contains name

/-- `resource.anchors.get(anchor)` — first binding in the anchors map. -/
def lookupAnchor : List (String × JsonPointer) → String → Option JsonPointer
  | [], _ => none
  | (a, p) :: rest, name => if a = name then some p else lookupAnchor rest name

/-- Modelled from the spec: `JsonPointer::concat` (util.rs, not in src/)
concatenates two root-relative pointers, producing the pointer string of the
first followed by that of the second. -/
def ptrConcat (p q : JsonPointer) : JsonPointer := p ++ q

/-- `Root::resolve_fragment_in` from `root.rs`. -/
def Root.resolve_fragment_in (r : Root) (frag : Fragment) (res : Resource) :
    Except CompileError UrlPtr :=
  match frag with
  | .Anchor anchor =>
      match lookupAnchor res.anchors anchor with
      | none =>
          .error (.AnchorNotFound r.url
            (UrlFrag.format res.id (Fragment.as_str (.Anchor anchor))))
      | some p => .ok { url := r.url, ptr := p }
  | .JsonPointer p => .ok { url := r.url, ptr := ptrConcat res.ptr p }

/-- `Root::resolve_fragment` from `root.rs`. -/
def Root.resolve_fragment (r : Root) (frag : Fragment) : Except CompileError UrlPtr :=
  match getRes r.resources [] with
  | none => .error (.Bug ("no root resource found for " ++ r.url))
  | some res => r.resolve_fragment_in frag res

/-- `self.resources.values().find(|res| res.id == uf.url)` from
`Root::resolve`. -/
def findById : Resources → Url → Option Resource
  | [], _ => none
  | (_, res) :: rest, u => if res.id = u then some res else findById rest u

/-- `Root::resolve` from `root.rs`. -/
def Root.resolve (r : Root) (uf : UrlFrag) : Except CompileError (Option UrlPtr) :=
  if uf.url = r.url then
    match getRes r.resources [] with
    | none => .error (.Bug ("no root resource found for " ++ r.url))
    | some res => (r.resolve_fragment_in uf.frag res).map some
  else
    match findById r.resources uf.url with
    | none => .ok none
    | some res => (r.resolve_fragment_in uf.frag res).map some

/-- `str::rsplit_once('/')`: split at the last `/`, returning the part before
and the part after, or `none` when no `/` occurs. -/
def rsplitOnceSlash : List Char → Option (List Char × List Char)
  | [] => none
  | c :: cs =>
      match rsplitOnceSlash cs with
      | some (pre, rest) => some (c :: pre, rest)
      | none => if c = '/' then some ([], cs) else none

theorem rsplitOnceSlash_length :
    ∀ {s pre rest : List Char}, rsplitOnceSlash s = some (pre, rest) →
      pre.length < s.length := by
  intro s
  induction s with
  | nil => intro pre rest h; simp [rsplitOnceSlash] at h
  | cons c cs ih =>
    intro pre rest h
    simp only [rsplitOnceSlash] at h
    cases hcs : rsplitOnceSlash cs with
    | none =>
      rw [hcs] at h
      by_cases hc : c = '/'
      · rw [if_pos hc] at h
        cases h
        simp
      · simp [hc] at h
    | some pr =>
      rw [hcs] at h
      obtain ⟨p', r'⟩ := pr
      cases h
      have hlt := ih hcs
      simpa using Nat.succ_lt_succ hlt

/-- The loop of `Root::resource` from `root.rs`: try the pointer itself, then
repeatedly trim the final `/`-segment; after the loop, fall back to
`resources.get("")`.  The `none` result models the `expect("root resource
should exist")` panic branch being reached. -/
def resourceCore (m : Resources) (p : JsonPointer) : Option Resource :=
  match getRes m p with
  | some res => some res
  | none =>
      match h : rsplitOnceSlash p with
      | some (pre, _) => resourceCore m pre
      | none => getRes m []
termination_by p.length
decreasing_by exact rsplitOnceSlash_length h

/-- The key at which the `Root::resource` loop finds its result (`none` when
the loop would panic): a specification artifact mirroring `resourceCore`,
used to reason about lookups after value-only map updates. -/
def resourceKey (m : Resources) (p : JsonPointer) : Option JsonPointer :=
  match getRes m p with
  | some _ => some p
  | none =>
      match h : rsplitOnceSlash p with
      | some (pre, _) => resourceKey m pre
      | none => if containsKey m [] then some [] else none
termination_by p.length
decreasing_by exact rsplitOnceSlash_length h

/-- `Root::resource` from `root.rs`; `none` models the panic on a missing root
resource. -/
def Root.resource (r : Root) (p : JsonPointer) : Option Resource :=
  resourceCore r.resources p

/-- `Root::base_url` from `root.rs` (`none` inherits `resource`'s panic). -/
def Root.base_url (r : Root) (p : JsonPointer) : Option Url :=
  (r.resource p).map Resource.id

/-- RFC-6901 escaping of one reference token: `~` becomes `~0`, `/` becomes
`~1`. -/
def escapeSegment : List Char → List Char
  | [] => []
  | c :: rest =>
      if c = '~' then '~' :: '0' :: escapeSegment rest
      else if c = '/' then '~' :: '1' :: escapeSegment rest
      else c :: escapeSegment rest

/-- Modelled from the spec: RFC-6901 unescaping of one pointer segment
(`~1` to `/`, `~0` to `~`); a `~` followed by anything else is a syntax
failure. -/
def unescapeSegment : List Char → Option (List Char)
  | [] => some []
  | '~' :: '0' :: rest => (unescapeSegment rest).map (fun r => '~' :: r)
  | '~' :: '1' :: rest => (unescapeSegment rest).map (fun r => '/' :: r)
  | '~' :: _ => none
  | c :: rest => (unescapeSegment rest).map (fun r => c :: r)

/-- Split a character sequence at every `/`. -/
def splitOnSlash : List Char → List (List Char)
  | [] => [[]]
  | c :: rest =>
      let r := splitOnSlash rest
      if c = '/' then [] :: r
      else
        match r with
        | [] => [[c]]
        | seg :: segs => (c :: seg) :: segs

/-- `serde_json::Map::get` on an object's fields. -/
def lookupField : List (String × Value) → String → Option Value
  | [], _ => none
  | (k, v) :: rest, key => if k = key then some v else lookupField rest key

def digitsVal : List Char → Nat → Option Nat
  | [], acc => some acc
  | c :: rest, acc =>
      if c.isDigit then digitsVal rest (acc * 10 + (c.toNat - 48)) else none

/-- Parse an array index from an unescaped pointer segment. -/
def parseIndex : List Char → Option Nat
  | [] => none
  | c :: rest => digitsVal (c :: rest) 0

/-- Modelled from the spec: the recursive walk of `JsonPointer::lookup`
(util.rs, not in src/) over the already-split, still-escaped segments. -/
def lookupSegs (url : Url) (pstr : String) : List (List Char) → Value → Except CompileError Value
  | [], v => .ok v
  | seg :: rest, v =>
      match unescapeSegment seg with
      | none => .error (.JsonPointerNotFound url pstr)
      | some key =>
          match v with
          | .obj fields =>
              match lookupField fields (String.mk key) with
              | some child => lookupSegs url pstr rest child
              | none => .error (.JsonPointerNotFound url pstr)
          | .arr elems =>
              match parseIndex key with
              | some i =>
                  match elems[i]? with
                  | some child => lookupSegs url pstr rest child
                  | none => .error (.JsonPointerNotFound url pstr)
              | none => .error (.JsonPointerNotFound url pstr)
          | _ => .error (.JsonPointerNotFound url pstr)

/-- Modelled from the spec: `JsonPointer::lookup(document, base_url)` (util.rs,
not in src/): the value at the RFC-6901 path (the empty pointer denotes the
document itself), or a structural pointer-lookup failure naming the document
URL and the pointer. -/
def ptrLookup (p : JsonPointer) (doc : Value) (url : Url) : Except CompileError Value :=
  match p with
  | [] => .ok doc
  | '/' :: rest => lookupSegs url (String.mk p) (splitOnSlash rest) doc
  | _ => .error (.JsonPointerNotFound url (String.mk p))

/-- Modelled from the spec: resolution of an identifier URI-reference against
the enclosing base URL (util.rs, not in src/), abstracted to: a reference
containing a scheme separator is absolute and replaces the base, a relative one
resolves against the base by concatenation. -/
def resolve_url (base : Url) (ref : String) : Url :=
  if ref.data.contains ':' then ref else base ++ ref

/-- Modelled from the spec: the identifier keyword consulted by the draft's
resource-collection rule (`id` before draft 6, `$id` from draft 6 on). -/
def Draft.id_kw (d : Draft) : String := if d.version < 6 then "id" else "$id"

mutual
/-- Modelled from the spec: `Draft::collect_resources` (draft.rs, not in src/).
Walks the subtree at `ptr`, inserting one `Resource` per boundary found (a
subtree whose identifier keyword holds a string; the subtree at the empty
pointer is always the document-root resource), keyed by its pointer-from-root;
a non-string identifier value is fatal.  Re-visiting an already-collected
pointer returns immediately, so existing entries are never duplicated or
overwritten (the spec's idempotence rule for re-visits).  The updated map is
returned together with the error, if any; insertions made before a failure
remain, as with the Rust `&mut` argument.  Draft-specific selection of which
child positions hold subschemas is abstracted to walking every object member
and array element; the pre-2019 embedded-anchor form of the identifier is not
modelled. -/
def collect_resources (d : Draft) (v : Value) (base : Url) (ptr : JsonPointer)
    (rootUrl : Url) (m : Resources) : Resources × Option CompileError :=
  if containsKey m ptr then (m, none)
  else
    match v with
    | .obj fields =>
        match lookupField fields d.id_kw with
        | some (.str s) =>
            let newBase := resolve_url base s
            collect_fields d fields newBase ptr rootUrl ((ptr, Resource.new ptr newBase) :: m)
        | some _ => (m, some (.InvalidId rootUrl (String.mk ptr)))
        | none =>
            let m1 := if ptr = [] then (ptr, Resource.new ptr base) :: m else m
            collect_fields d fields base ptr rootUrl m1
    | .arr elems =>
        let m1 := if ptr = [] then (ptr, Resource.new ptr base) :: m else m
        collect_elems d elems base ptr rootUrl 0 m1
    | _ =>
        if ptr = [] then ((ptr, Resource.new ptr base) :: m, none) else (m, none)

/-- The walk of `collect_resources` over an object's members. -/
def collect_fields (d : Draft) (fields : List (String × Value)) (base : Url)
    (ptr : JsonPointer) (rootUrl : Url) (m : Resources) : Resources × Option CompileError :=
  match fields with
  | [] => (m, none)
  | (k, child) :: rest =>
      match collect_resources d child base (ptr ++ '/' :: escapeSegment k.data) rootUrl m with
      | (m1, some err) => (m1, some err)
      | (m1, none) => collect_fields d rest base ptr rootUrl m1

/-- The walk of `collect_resources` over an array's elements. -/
def collect_elems (d : Draft) (elems : List Value) (base : Url)
    (ptr : JsonPointer) (rootUrl : Url) (i : Nat) (m : Resources) : Resources × Option CompileError :=
  match elems with
  | [] => (m, none)
  | child :: rest =>
      match collect_resources d child base (ptr ++ '/' :: (Nat.repr i).data) rootUrl m with
      | (m1, some err) => (m1, some err)
      | (m1, none) => collect_elems d rest base ptr rootUrl (i + 1) m1
end

/-- Modelled from the spec: recording one anchor binding in a resource
(draft.rs, not in src/): a fresh name is inserted, re-recording the same
name-to-pointer binding is a no-op (idempotent re-visit), and a name already
bound to a different pointer is a fatal collision. -/
def add_anchor (res : Resource) (name : String) (ptr : JsonPointer) (rootUrl : Url) :
    Except CompileError Resource :=
  match lookupAnchor res.anchors name with
  | none => .ok { res with anchors := (name, ptr) :: res.anchors }
  | some p =>
      if p = ptr then .ok res
      else .error (.DuplicateAnchor name rootUrl (String.mk ptr))

/-- Modelled from the spec: `Draft::collect_anchors` (draft.rs, not in src/),
applied to the single value the compiler is visiting (each visited pointer gets
its own `add_subschema` call): a string `$anchor` becomes a static anchor
(drafts from 2019 on; earlier drafts' embedded-anchor form is not modelled), a
string `$dynamicAnchor` becomes both a static anchor and a dynamic-anchor entry
but is fatal under a draft without dynamic-anchor support (before 2020);
non-string anchor values are fatal, as is a name colliding with an existing
anchor at a different pointer.  The updated resource is returned with the
error, if any; changes made before a failure remain, as with Rust `&mut`. -/
def collect_anchors (d : Draft) (v : Value) (ptr : JsonPointer) (res : Resource)
    (rootUrl : Url) : Resource × Option CompileError :=
  match v with
  | .obj fields =>
      let step1 : Except CompileError Resource :=
        if d.version < 2019 then .ok res
        else
          match lookupField fields "$anchor" with
          | none => .ok res
          | some (.str s) => add_anchor res s ptr rootUrl
          | some _ => .error (.InvalidAnchor rootUrl (String.mk ptr))
      match step1 with
      | .error e => (res, some e)
      | .ok res1 =>
          match lookupField fields "$dynamicAnchor" with
          | none => (res1, none)
          | some (.str s) =>
              if d.version < 2020 then
                (res1, some (.UnsupportedDynamicAnchor rootUrl (String.mk ptr)))
              else
                match add_anchor res1 s ptr rootUrl with
                | .error e => (res1, some e)
                | .ok res2 =>
                    if res2.dynamic_anchors.contains s then (res2, none)
                    else ({ res2 with dynamic_anchors := s :: res2.dynamic_anchors }, none)
          | some _ => (res1, some (.InvalidAnchor rootUrl (String.mk ptr)))
  | _ => (res, none)

/-- `Root::add_subschema` from `root.rs`.  Returns the post-state together with
the error, if any, modelling the mutation of `&mut self`: on error the returned
state keeps whatever the phases before the failure inserted, as in Rust.
Reaching the `Root::resource` panic is modelled as a `Bug` error. -/
def Root.add_subschema (r : Root) (doc : Value) (ptr : JsonPointer) :
    Root × Option CompileError :=
  match ptrLookup ptr doc r.url with
  | .error e => (r, some e)
  | .ok v =>
      match r.resource ptr with
      | none => (r, some (.Bug "panic: root resource should exist"))
      | some res0 =>
          match collect_resources r.draft v res0.id ptr r.url r.resources with
          | (m1, some e) => ({ r with resources := m1 }, some e)
          | (m1, none) =>
              if containsKey m1 ptr then ({ r with resources := m1 }, none)
              else
                match resourceCore m1 ptr with
                | none => ({ r with resources := m1 }, some (.Bug "panic: root resource should exist"))
                | some owner =>
                    match getRes m1 owner.ptr with
                    | none => ({ r with resources := m1 }, none)
                    | some ownerRes =>
                        match collect_anchors r.draft v ptr ownerRes r.url with
                        | (res2, e2) =>
                            ({ r with resources := setKey m1 owner.ptr res2 }, e2)

/-- The `jsonway::ObjectBuilder` used by the builder DSL (external crate),
modelled as the JSON object under construction; `set` is last-write-wins per
key, preserving first-insertion order. -/
structure ObjectBuilder where
  fields : List (String × Value)

def ObjectBuilder.new : ObjectBuilder := ⟨[]⟩

/-- Replace the binding of `k` when present, append it otherwise. -/
def setField : List (String × Value) → String → Value → List (String × Value)
  | [], k, v => [(k, v)]
  | (k', v') :: rest, k, v =>
      if k' = k then (k', v) :: rest else (k', v') :: setField rest k v

def ObjectBuilder.set (b : ObjectBuilder) (k : String) (v : Value) : ObjectBuilder :=
  ⟨setField b.fields k v⟩

/-- `JsonSchemaBuilder` from `schema_builder.rs`. -/
structure JsonSchemaBuilder where
  obj_builder : ObjectBuilder

/-- `JsonSchemaBuilder::new`. -/
def JsonSchemaBuilder.new : JsonSchemaBuilder := ⟨ObjectBuilder.new⟩

/-- `JsonSchemaBuilder::id` from `schema_builder.rs`. -/
def JsonSchemaBuilder.id (b : JsonSchemaBuilder) (url : String) : JsonSchemaBuilder :=
  ⟨b.obj_builder.set "$id" (.str url)⟩

/-- `JsonSchemaBuilder::anchor` from `schema_builder.rs`. -/
def JsonSchemaBuilder.anchor (b : JsonSchemaBuilder) (name : String) : JsonSchemaBuilder :=
  ⟨b.obj_builder.set "$anchor" (.str name)⟩

/-- `JsonSchemaBuilder::definitions` from `schema_builder.rs`; the `FnOnce`
build closure is shallow-embedded as the `SchemaHash` items it builds. -/
def JsonSchemaBuilder.definitions (b : JsonSchemaBuilder) (items : List (String × Value)) :
    JsonSchemaBuilder :=
  ⟨b.obj_builder.set "$defs" (.obj items)⟩

/-- `JsonSchemaBuilder::into_json` from `schema_builder.rs`. -/
def JsonSchemaBuilder.into_json (b : JsonSchemaBuilder) : Value :=
  .obj b.obj_builder.fields

/-! ## Predicates used to state the longest-prefix property -/

/-- `q` is a path-prefix of `p`: either the same pointer, or `p` extends `q`
with a further `/`-separated remainder.  Because RFC-6901 escaping writes a
`/` inside a segment as `~1`, the literal `/` characters of a pointer string
are exactly its segment separators, and this character-level notion coincides
with segment-level prefixing (see `ptrSegs`). -/
def IsPathPfx (q p : List Char) : Prop := q = p ∨ ∃ s, p = q ++ '/' :: s

/-- A well-formed RFC-6901 pointer string: empty, or starting with `/`. -/
def WfPtr (p : List Char) : Prop := p = [] ∨ ∃ t, p = '/' :: t

/-- The (still-escaped) segment list of a well-formed pointer. -/
def ptrSegs (p : List Char) : List (List Char) :=
  match p with
  | [] => []
  | _ :: t => splitOnSlash t

/-! ## Concrete fixtures used by the witness theorems -/

def dV2020 : Draft := { version := 2020, default_vocabs := ["core", "applicator", "validation"] }

def dV7 : Draft := { version := 7, default_vocabs := ["core", "applicator"] }

def exUrl : Url := "http://example.com/schema.json"

def rootResEx : Resource :=
  { ptr := [], id := exUrl, anchors := [("top", "/a~1b".data)], dynamic_anchors := [] }

/-- An embedded resource whose pointer contains an escaped slash (`~1`). -/
def subResEx : Resource :=
  { ptr := "/a~1b".data, id := "http://sub.example.com/s.json",
    anchors := [("inner", "/a~1b/x".data)], dynamic_anchors := [] }

/-- A decoy resource that declares the root's own URL as its id and binds the
anchors differently: `resolve` must never consult it for the root's URL. -/
def decoyResEx : Resource :=
  { ptr := "/d".data, id := exUrl, anchors := [("top", "/d/y".data)], dynamic_anchors := [] }

def rootEx : Root :=
  { draft := dV2020,
    resources := [([], rootResEx), ("/a~1b".data, subResEx)],
    url := exUrl,
    meta_vocabs := some ["applicator"] }

def rootExDecoy : Root :=
  { draft := dV2020,
    resources := [([], rootResEx), ("/a~1b".data, subResEx), ("/d".data, decoyResEx)],
    url := exUrl,
    meta_vocabs := some ["applicator"] }

/-- A root whose resources map lacks the empty-pointer entry. -/
def rootlessEx : Root :=
  { draft := dV2020, resources := [], url := exUrl, meta_vocabs := none }

/-- The subschema at `/a` of `docC5`: a malformed (non-string) `$anchor`
beside a child declaring a fresh resource boundary. -/
def vC5a : Value :=
  .obj [("$anchor", .num 5), ("items", .obj [("$id", .str "http://sub.example.com/s.json")])]

/-- A document whose subschema at `/a` mixes a malformed `$anchor` with an
embedded resource: resource collection succeeds and inserts `/a/items`, then
anchor collection fails. -/
def docC5 : Value := .obj [("a", vC5a)]

def rootC5 : Root :=
  { draft := dV2020, resources := [([], Resource.new [] exUrl)], url := exUrl,
    meta_vocabs := none }

/-- The resources map after the failing `add_subschema` call on `docC5`: the
embedded resource collected at `/a/items` remains. -/
def mC5 : Resources :=
  [("/a/items".data, Resource.new ("/a/items".data) "http://sub.example.com/s.json"),
   ([], Resource.new [] exUrl)]

/-- The subschema at `/a` of `docC6`: a single well-formed anchor. -/
def vC6a : Value := .obj [("$anchor", .str "foo")]

def docC6 : Value := .obj [("a", vC6a)]

def rootC6 : Root :=
  { draft := dV2020, resources := [([], Resource.new [] exUrl)], url := exUrl,
    meta_vocabs := none }

/-- The document-root resource after registering `/a` of `docC6`: the anchor
`foo` now points at `/a`. -/
def resC6 : Resource :=
  { ptr := [], id := exUrl, anchors := [("foo", "/a".data)], dynamic_anchors := [] }

def rootC6after : Root :=
  { draft := dV2020, resources := [([], resC6)], url := exUrl, meta_vocabs := none }

end JsonSchema

namespace JsonSchema

/-! ## Theorems for the claims -/

/-- Anything stored by `setField` is found at its key. -/
theorem lookupField_setField_same (l : List (String × Value)) (k : String) (v : Value) :
    lookupField (setField l k v) k = some v := by
  induction l with
  | nil => simp [setField, lookupField]
  | cons hd tl ih =>
    obtain ⟨k', v'⟩ := hd
    by_cases hk : k' = k
    · simp [setField, hk, lookupField]
    · simp [setField, hk, lookupField, ih]

/-- `setField` leaves every other key alone. -/
theorem lookupField_setField_other (l : List (String × Value)) (k k2 : String) (v : Value)
    (h : k2 ≠ k) :
    lookupField (setField l k v) k2 = lookupField l k2 := by
  have hne : ¬ k = k2 := fun hh => h hh.symm
  induction l with
  | nil => simp [setField, lookupField, hne]
  | cons hd tl ih =>
    obtain ⟨k', v'⟩ := hd
    by_cases hk : k' = k
    · subst hk
      have hne2 : ¬ k' = k2 := hne
      simp [setField, lookupField, hne2]
    · simp [setField, hk, lookupField, ih]

/-- C10: the builder DSL always emits the post-2019 keyword spellings,
independently of any draft: `definitions` stores the built map under the JSON
key `"$defs"` (never under `"definitions"`), `id` stores under `"$id"`, and
`anchor` stores under `"$anchor"`. -/
theorem builder_emits_post2019_keywords (b : JsonSchemaBuilder)
    (items : List (String × Value)) (url name : String) :
    lookupField (b.definitions items).obj_builder.fields "$defs" = some (.obj items) ∧
    lookupField (b.definitions items).obj_builder.fields "definitions" =
      lookupField b.obj_builder.fields "definitions" ∧
    lookupField (b.id url).obj_builder.fields "$id" = some (.str url) ∧
    lookupField (b.anchor name).obj_builder.fields "$anchor" = some (.str name) := by
  refine ⟨?_, ?_, ?_, ?_⟩
  · exact lookupField_setField_same _ _ _
  · exact lookupField_setField_other _ _ _ _ (by decide)
  · exact lookupField_setField_same _ _ _
  · exact lookupField_setField_same _ _ _

/-- C2: `Root::has_vocab` is unconditionally true for drafts predating
vocabulary support and for the name `"core"`; otherwise an explicit
`meta_vocabs` list decides by membership (so a non-core name omitted from the
list is rejected even when the draft's defaults include it), and in its absence
the draft's default vocabulary set decides. -/
theorem has_vocab_characterization (r : Root) (name : String) :
    (r.draft.version < 2019 → r.has_vocab name = true) ∧
    (name = "core" → r.has_vocab name = true) ∧
    (∀ vocabs, 2019 ≤ r.draft.version → r.meta_vocabs = some vocabs →
      (r.has_vocab name = true ↔ (name = "core" ∨ name ∈ vocabs))) ∧
    (2019 ≤ r.draft.version → name ≠ "core" → r.meta_vocabs = none →
      (r.has_vocab name = true ↔ name ∈ r.draft.default_vocabs)) := by
  refine ⟨?_, ?_, ?_, ?_⟩
  · intro h
    simp [Root.has_vocab, h]
  · intro h
    simp [Root.has_vocab, h]
  · intro vocabs hver hmv
    have hlt : ¬ r.draft.version < 2019 := by omega
    by_cases hc : name = "core"
    · simp [Root.has_vocab, hc, hlt]
    · have hc' : (name == "core") = false := by
        simpa [beq_iff_eq] using hc
      simp only [Root.has_vocab, hlt, hc', Bool.or_false, if_false, hmv]
      constructor
      · intro h
        rcases List.any_eq_true.mp h with ⟨x, hx, hbeq⟩
        right
        rw [← beq_iff_eq.mp hbeq]
        exact hx
      · intro h
        rcases h with h | h
        · exact absurd h hc
        · exact List.any_eq_true.mpr ⟨name, h, beq_self_eq_true name⟩
  · intro hver hc hmv
    have hlt : ¬ r.draft.version < 2019 := by omega
    have hc' : (name == "core") = false := by
      simpa [beq_iff_eq] using hc
    simp only [Root.has_vocab, hlt, hc', Bool.or_false, if_false, hmv]
    simpa [List.contains] using @List.elem_iff _ _ _ name r.draft.default_vocabs

/-- Witness for C2 at a concrete root: draft 2020 with the explicit vocabulary
list `["applicator"]`, queried for `"validation"` (in the defaults but omitted
from the list), yields `false`. -/
theorem has_vocab_characterization_witness :
    rootEx.has_vocab "validation" = true ↔
      ("validation" = "core" ∨ "validation" ∈ ["applicator"]) :=
  (has_vocab_characterization rootEx "validation").2.2.1 ["applicator"]
    (by decide) rfl

/-- C4: resolving an `Anchor` fragment whose name is absent from the
resource's anchors map fails with the `AnchorNotFound` kind, and the error
carries the document URL and the reference text (the resource's base URL and
the anchor as written) verbatim; `resolve_fragment` propagates the same
error when the root resource is the nearest resource. -/
theorem anchor_not_found_error (r : Root) (res : Resource) (name : String)
    (h : lookupAnchor res.anchors name = none) :
    r.resolve_fragment_in (.Anchor name) res =
      .error (.AnchorNotFound r.url (UrlFrag.format res.id name)) ∧
    (getRes r.resources [] = some res →
      r.resolve_fragment (.Anchor name) =
        .error (.AnchorNotFound r.url (UrlFrag.format res.id name))) := by
  constructor
  · simp [Root.resolve_fragment_in, h, Fragment.as_str]
  · intro hroot
    simp [Root.resolve_fragment, hroot, Root.resolve_fragment_in, h, Fragment.as_str]

/-- Witness for C4: the missing anchor `"nope"` in the concrete root resource
produces `AnchorNotFound` naming the document URL and the reference
`http://example.com/schema.json#nope`. -/
theorem anchor_not_found_error_witness :
    rootEx.resolve_fragment_in (.Anchor "nope") rootResEx =
      .error (.AnchorNotFound rootEx.url (UrlFrag.format rootResEx.id "nope")) :=
  (anchor_not_found_error rootEx rootResEx "nope" rfl).1

/-- C7: a `JsonPointer` fragment resolves to the root's document URL paired
with the resource's own pointer-from-root concatenated with the fragment (not
the fragment alone), and `resolve_fragment` resolves against the resource
stored at the empty pointer. -/
theorem json_pointer_fragment_concatenates (r : Root) (res : Resource) (q : List Char) :
    r.resolve_fragment_in (.JsonPointer q) res =
      .ok { url := r.url, ptr := res.ptr ++ q } ∧
    (∀ frag, getRes r.resources [] = some res →
      r.resolve_fragment frag = r.resolve_fragment_in frag res) := by
  constructor
  · simp [Root.resolve_fragment_in, ptrConcat]
  · intro frag hroot
    simp [Root.resolve_fragment, hroot]

/-- Witness for C7: resolving the fragment `/x` inside the nested resource at
`/a~1b` yields the pointer `/a~1b/x`, not `/x`. -/
theorem json_pointer_fragment_concatenates_witness :
    rootEx.resolve_fragment_in (.JsonPointer "/x".data) subResEx =
      .ok { url := rootEx.url, ptr := subResEx.ptr ++ "/x".data } ∧
    rootEx.resolve_fragment (.Anchor "top") =
      rootEx.resolve_fragment_in (.Anchor "top") rootResEx := by
  constructor
  · exact (json_pointer_fragment_concatenates rootEx subResEx "/x".data).1
  · exact (json_pointer_fragment_concatenates rootEx rootResEx "/x".data).2 (.Anchor "top") rfl

/-- `findById` returns `none` exactly when no resource in the map declares the
URL as its id. -/
theorem findById_none_iff (m : Resources) (u : Url) :
    findById m u = none ↔ ∀ pr ∈ m, pr.2.id ≠ u := by
  induction m with
  | nil => simp [findById]
  | cons hd tl ih =>
    obtain ⟨k, res⟩ := hd
    simp only [findById]
    by_cases hid : res.id = u
    · rw [if_pos hid]
      constructor
      · intro h; cases h
      · intro h
        exact absurd hid (h (k, res) (List.mem_cons_self _ _))
    · rw [if_neg hid, ih]
      constructor
      · intro h pr hpr
        rcases List.mem_cons.mp hpr with h1 | h1
        · rw [h1]; exact hid
        · exact h pr h1
      · intro h pr hpr
        exact h pr (List.mem_cons_of_mem _ hpr)

/-- A resource found by `findById` declares the URL and lives in the map. -/
theorem findById_some_mem (m : Resources) (u : Url) (res : Resource)
    (h : findById m u = some res) : res.id = u ∧ ∃ pr ∈ m, pr.2 = res := by
  induction m with
  | nil => simp [findById] at h
  | cons hd tl ih =>
    obtain ⟨k, r0⟩ := hd
    simp only [findById] at h
    by_cases hid : r0.id = u
    · rw [if_pos hid] at h
      have hres : r0 = res := by injection h
      exact ⟨hres ▸ hid, ⟨(k, r0), List.mem_cons_self _ _, hres⟩⟩
    · rw [if_neg hid] at h
      obtain ⟨h1, pr, hpr, h2⟩ := ih h
      exact ⟨h1, pr, List.mem_cons_of_mem _ hpr, h2⟩

theorem except_map_some_ne_ok_none (x : Except CompileError UrlPtr) :
    x.map some ≠ Except.ok none := by
  cases x <;> simp [Except.map]

/-- C3: with the root resource present, `resolve` returns `Ok(None)` exactly
when the target URL differs from the root's own URL and no resource in the map
declares it as id (and in that case never errors); when the root's URL or a
declared id matches, the fragment is resolved against that resource and mapped
to `Some`. -/
theorem resolve_ok_none_iff_external (r : Root) (uf : UrlFrag) (res0 : Resource)
    (hroot : getRes r.resources [] = some res0) :
    (r.resolve uf = .ok none ↔
      (uf.url ≠ r.url ∧ ∀ pr ∈ r.resources, pr.2.id ≠ uf.url)) ∧
    (uf.url = r.url → r.resolve uf = (r.resolve_fragment_in uf.frag res0).map some) ∧
    (∀ res, uf.url ≠ r.url → findById r.resources uf.url = some res →
      r.resolve uf = (r.resolve_fragment_in uf.frag res).map some) := by
  by_cases hu : uf.url = r.url
  · refine ⟨?_, ?_, ?_⟩
    · rw [Root.resolve, if_pos hu, hroot]
      constructor
      · intro h; exact absurd h (except_map_some_ne_ok_none _)
      · rintro ⟨h1, _⟩; exact absurd hu h1
    · intro _
      rw [Root.resolve, if_pos hu, hroot]
    · intro res hne _
      exact absurd hu hne
  · cases hfind : findById r.resources uf.url with
    | none =>
      refine ⟨?_, ?_, ?_⟩
      · rw [Root.resolve, if_neg hu, hfind]
        constructor
        · intro _
          exact ⟨hu, (findById_none_iff _ _).mp hfind⟩
        · intro _
          rfl
      · intro h
        exact absurd h hu
      · intro res _ hsome
        simp at hsome
    | some res1 =>
      refine ⟨?_, ?_, ?_⟩
      · rw [Root.resolve, if_neg hu, hfind]
        constructor
        · intro h
          exact absurd h (except_map_some_ne_ok_none _)
        · rintro ⟨_, hall⟩
          obtain ⟨hid, pr, hpr, hres⟩ := findById_some_mem _ _ _ hfind
          exact absurd (hres ▸ hid) (hall pr hpr)
      · intro h
        exact absurd h hu
      · intro res _ hsome
        injection hsome with hres
        subst hres
        rw [Root.resolve, if_neg hu, hfind]

/-- Witness for C3: a URL registered nowhere in the concrete root resolves to
`Ok(None)`. -/
theorem resolve_ok_none_iff_external_witness :
    rootEx.resolve { url := "http://other.com/x.json", frag := .Anchor "top" } = .ok none ↔
      ("http://other.com/x.json" ≠ rootEx.url ∧
        ∀ pr ∈ rootEx.resources, pr.2.id ≠ "http://other.com/x.json") :=
  (resolve_ok_none_iff_external rootEx
    { url := "http://other.com/x.json", frag := .Anchor "top" } rootResEx rfl).1

/-- `resolve_fragment_in` depends on the root only through its URL. -/
theorem resolve_fragment_in_url_congr (r r2 : Root) (frag : Fragment) (res : Resource)
    (h : r2.url = r.url) :
    r2.resolve_fragment_in frag res = r.resolve_fragment_in frag res := by
  cases frag with
  | Anchor a => simp [Root.resolve_fragment_in, h]
  | JsonPointer p => simp [Root.resolve_fragment_in, h]

/-- C9: when the target URL equals the root's own URL, `resolve` resolves
against the document-root resource (pointer `""`) alone and never searches the
embedded-resource ids: any root sharing the URL and the root-resource binding
resolves identically, whatever other resources — even ones whose id equals the
root URL — its map holds. -/
theorem resolve_own_url_ignores_embedded (r r2 : Root) (uf : UrlFrag) (res0 : Resource)
    (hurl : uf.url = r.url) (hroot : getRes r.resources [] = some res0)
    (hurl2 : r2.url = r.url) (hroot2 : getRes r2.resources [] = some res0) :
    r.resolve uf = (r.resolve_fragment_in uf.frag res0).map some ∧
    r2.resolve uf = r.resolve uf := by
  have h1 : r.resolve uf = (r.resolve_fragment_in uf.frag res0).map some := by
    rw [Root.resolve, if_pos hurl, hroot]
  have h2 : r2.resolve uf = (r2.resolve_fragment_in uf.frag res0).map some := by
    rw [Root.resolve, if_pos (hurl.trans hurl2.symm), hroot2]
  refine ⟨h1, ?_⟩
  rw [h2, h1, resolve_fragment_in_url_congr r r2 uf.frag res0 hurl2]

/-- Witness for C9: the decoy root carries an embedded resource whose id is the
document URL and whose `"top"` anchor points elsewhere, yet resolution for the
document URL is unchanged. -/
theorem resolve_own_url_ignores_embedded_witness :
    rootExDecoy.resolve { url := exUrl, frag := .Anchor "top" } =
      rootEx.resolve { url := exUrl, frag := .Anchor "top" } :=
  (resolve_own_url_ignores_embedded rootEx rootExDecoy
    { url := exUrl, frag := .Anchor "top" } rootResEx rfl rfl rfl rfl).2

/-- Unfolding equation for `resourceCore` with a non-dependent match. -/
theorem resourceCore_eq (m : Resources) (p : JsonPointer) :
    resourceCore m p =
      match getRes m p with
      | some res => some res
      | none =>
          match rsplitOnceSlash p with
          | some (pre, _) => resourceCore m pre
          | none => getRes m [] := by
  rw [resourceCore]
  cases hg : getRes m p with
  | some res => rfl
  | none =>
    simp only []
    split
    · rename_i pre snd heq
      rw [heq]
    · rename_i heq
      rw [heq]

/-- With the root resource present, the `Root::resource` loop always finds a
resource (it never reaches the panic branch). -/
theorem resourceCore_isSome_of_root (m : Resources) (h : containsKey m [] = true) :
    ∀ p, (resourceCore m p).isSome = true := by
  intro p
  induction p using resourceCore.induct m with
  | case1 x res hx =>
    rw [resourceCore_eq]
    simp [hx]
  | case2 x hx pre snd hsplit ih =>
    rw [resourceCore_eq]
    simp [hx, hsplit, ih]
  | case3 x hx hsplit =>
    rw [resourceCore_eq]
    simp only [hx, hsplit]
    exact h

/-- C8: with the empty-pointer entry present, `Root::resource` is total (its
panic branch is unreachable) for every input pointer; with it absent,
`resource` reaches the panic branch (modelled as `none`), whereas
`resolve_fragment` and `resolve` report the very same missing-root-resource
condition as a recoverable `Bug` error. -/
theorem resource_total_or_panic (r : Root) :
    (containsKey r.resources [] = true → ∀ p, (r.resource p).isSome = true) ∧
    (getRes r.resources [] = none →
      (r.resource [] = none ∧
       (∀ frag, r.resolve_fragment frag =
          .error (.Bug ("no root resource found for " ++ r.url))) ∧
       (∀ uf, uf.url = r.url → r.resolve uf =
          .error (.Bug ("no root resource found for " ++ r.url))))) := by
  constructor
  · intro h p
    exact resourceCore_isSome_of_root r.resources h p
  · intro h
    refine ⟨?_, ?_, ?_⟩
    · show resourceCore r.resources [] = none
      rw [resourceCore_eq]
      simp [h, rsplitOnceSlash]
    · intro frag
      simp [Root.resolve_fragment, h]
    · intro uf hu
      simp [Root.resolve, hu, h]

/-- Witness for C8: the concrete populated root finds a resource for a deep
pointer, while the root with no resources panics in `resource` but gets a `Bug`
error from `resolve_fragment`. -/
theorem resource_total_or_panic_witness :
    (rootEx.resource "/a~1b/z".data).isSome = true ∧
    rootlessEx.resource [] = none ∧
    rootlessEx.resolve_fragment (.Anchor "top") =
      .error (.Bug ("no root resource found for " ++ rootlessEx.url)) := by
  refine ⟨?_, ?_, ?_⟩
  · exact (resource_total_or_panic rootEx).1 (by decide) _
  · exact ((resource_total_or_panic rootlessEx).2 rfl).1
  · exact ((resource_total_or_panic rootlessEx).2 rfl).2.1 _

/-- A string with no `/` has no last-`/` split. -/
theorem slash_not_mem_of_rsplit_none :
    ∀ (s : List Char), rsplitOnceSlash s = none → '/' ∉ s := by
  intro s
  induction s with
  | nil =>
    intro _
    simp
  | cons c cs ih =>
    intro h
    simp only [rsplitOnceSlash] at h
    cases hcs : rsplitOnceSlash cs with
    | some pr =>
      rw [hcs] at h
      obtain ⟨a, b⟩ := pr
      simp at h
    | none =>
      rw [hcs] at h
      by_cases hc : c = '/'
      · rw [if_pos hc] at h
        simp at h
      · intro hmem
        rcases List.mem_cons.mp hmem with h1 | h1
        · exact hc h1.symm
        · exact ih hcs h1

/-- `rsplit_once('/')` splits off exactly the final segment: the input is the
part before, a `/`, and a slash-free remainder. -/
theorem rsplit_append (s pre rest : List Char) (h : rsplitOnceSlash s = some (pre, rest)) :
    s = pre ++ '/' :: rest ∧ '/' ∉ rest := by
  induction s generalizing pre rest with
  | nil => simp [rsplitOnceSlash] at h
  | cons c cs ih =>
    simp only [rsplitOnceSlash] at h
    cases hcs : rsplitOnceSlash cs with
    | none =>
      rw [hcs] at h
      by_cases hc : c = '/'
      · rw [if_pos hc] at h
        cases h
        subst hc
        exact ⟨rfl, slash_not_mem_of_rsplit_none cs hcs⟩
      · rw [if_neg hc] at h
        cases h
    | some pr =>
      obtain ⟨p2, r2⟩ := pr
      rw [hcs] at h
      cases h
      obtain ⟨ih1, ih2⟩ := ih _ _ hcs
      refine ⟨?_, ih2⟩
      rw [List.cons_append, ← ih1]

/-- A string starting with `/` always has a last-`/` split. -/
theorem rsplit_isSome_of_slash_head (t : List Char) :
    (rsplitOnceSlash ('/' :: t)).isSome = true := by
  simp only [rsplitOnceSlash]
  cases h : rsplitOnceSlash t with
  | none => simp
  | some pr =>
    obtain ⟨a, b⟩ := pr
    simp

/-- Trimming the final segment of a well-formed pointer yields a well-formed
pointer. -/
theorem wf_trim (p pre rest : List Char) (hwf : WfPtr p)
    (h : rsplitOnceSlash p = some (pre, rest)) : WfPtr pre := by
  rcases hwf with h0 | ⟨t, ht⟩
  · subst h0
    simp [rsplitOnceSlash] at h
  · subst ht
    obtain ⟨heq, _⟩ := rsplit_append _ _ _ h
    cases pre with
    | nil => exact Or.inl rfl
    | cons c cs =>
      rw [List.cons_append] at heq
      injection heq with h1 _
      exact Or.inr ⟨cs, by rw [← h1]⟩

theorem isPathPfx_refl (p : List Char) : IsPathPfx p p := Or.inl rfl

theorem isPathPfx_length (q p : List Char) (h : IsPathPfx q p) : q.length ≤ p.length := by
  rcases h with rfl | ⟨s, hs⟩
  · exact le_refl _
  · subst hs
    simp

theorem isPathPfx_of_nil (p : List Char) (hwf : WfPtr p) : IsPathPfx [] p := by
  rcases hwf with h0 | ⟨t, ht⟩
  · exact Or.inl h0.symm
  · exact Or.inr ⟨t, by rw [ht]; rfl⟩

theorem isPathPfx_trans (a b c : List Char) (h1 : IsPathPfx a b) (h2 : IsPathPfx b c) :
    IsPathPfx a c := by
  rcases h1 with rfl | ⟨s, hs⟩
  · exact h2
  · rcases h2 with rfl | ⟨t, ht⟩
    · exact Or.inr ⟨s, hs⟩
    · subst hs
      subst ht
      exact Or.inr ⟨s ++ '/' :: t, by simp⟩

/-- A proper path-prefix of `p` survives the trimming of `p`'s last segment:
trimming can never cut into a shorter path-prefix, because the freshly removed
segment is slash-free. -/
theorem isPathPfx_trim (k p pre rest : List Char) (hk : IsPathPfx k p) (hne : k ≠ p)
    (h : rsplitOnceSlash p = some (pre, rest)) : IsPathPfx k pre := by
  rcases hk with rfl | ⟨s, hs⟩
  · exact absurd rfl hne
  · obtain ⟨heq, hnr⟩ := rsplit_append _ _ _ h
    have hx : k ++ '/' :: s = pre ++ '/' :: rest := by rw [← hs, ← heq]
    rcases List.append_eq_append_iff.mp hx with ⟨a, ha1, ha2⟩ | ⟨c, hc1, hc2⟩
    · cases a with
      | nil =>
        left
        simpa using ha1.symm
      | cons a0 a2 =>
        rw [List.cons_append] at ha2
        injection ha2 with e1 _
        right
        exact ⟨a2, by rw [ha1, ← e1]⟩
    · cases c with
      | nil =>
        left
        simpa using hc1
      | cons c0 c2 =>
        rw [List.cons_append] at hc2
        injection hc2 with e1 e2
        exfalso
        apply hnr
        rw [e2]
        exact List.mem_append.mpr (Or.inr (List.mem_cons_self _ _))

theorem splitOnSlash_ne_nil (s : List Char) : splitOnSlash s ≠ [] := by
  cases s with
  | nil => simp [splitOnSlash]
  | cons c cs =>
    simp only [splitOnSlash]
    by_cases hc : c = '/'
    · simp [hc]
    · simp only [if_neg hc]
      cases h : splitOnSlash cs <;> simp

/-- Splitting on `/` distributes over an explicit separator. -/
theorem splitOnSlash_append (a b : List Char) :
    splitOnSlash (a ++ '/' :: b) = splitOnSlash a ++ splitOnSlash b := by
  induction a with
  | nil => simp [splitOnSlash]
  | cons c cs ih =>
    rw [List.cons_append]
    simp only [splitOnSlash, ih]
    by_cases hc : c = '/'
    · simp [hc]
    · simp only [if_neg hc]
      cases h : splitOnSlash cs with
      | nil => exact absurd h (splitOnSlash_ne_nil cs)
      | cons seg segs => simp

/-- A path-prefix at the character level is a prefix at the (escaped) segment
level: since `~1` contains no literal `/`, character-level trimming respects
segment boundaries. -/
theorem segs_of_pathPfx (q p : List Char) (hq : WfPtr q)
    (h : IsPathPfx q p) : ∃ t, ptrSegs p = ptrSegs q ++ t := by
  rcases h with rfl | ⟨s, hs⟩
  · exact ⟨[], by simp⟩
  · subst hs
    rcases hq with h0 | ⟨t, ht⟩
    · subst h0
      exact ⟨splitOnSlash s, by simp [ptrSegs]⟩
    · subst ht
      refine ⟨splitOnSlash s, ?_⟩
      show ptrSegs (('/' :: t) ++ '/' :: s) = ptrSegs ('/' :: t) ++ splitOnSlash s
      rw [List.cons_append]
      simp only [ptrSegs]
      exact splitOnSlash_append t s

/-- The `Root::resource` loop returns a registered resource found at a key
that is a path-prefix of the query, and no longer registered path-prefix
exists: the candidates tried are exactly the path-prefixes of the query in
decreasing length order. -/
theorem resourceCore_longest (m : Resources) :
    ∀ p, WfPtr p → ∀ res, resourceCore m p = some res →
      ∃ k, getRes m k = some res ∧ IsPathPfx k p ∧
        (∀ k2, containsKey m k2 = true → IsPathPfx k2 p → k2.length ≤ k.length) := by
  intro p
  induction p using resourceCore.induct m with
  | case1 x res0 hx =>
    intro hwf res hres
    rw [resourceCore_eq, hx] at hres
    injection hres with he
    refine ⟨x, by rw [hx, he], isPathPfx_refl x, ?_⟩
    intro k2 _ hpk2
    exact isPathPfx_length k2 x hpk2
  | case2 x hx pre snd hsplit ih =>
    intro hwf res hres
    rw [resourceCore_eq, hx, hsplit] at hres
    have hwfpre := wf_trim x pre snd hwf hsplit
    obtain ⟨k, hk1, hk2, hk3⟩ := ih hwfpre res hres
    have hpfx : IsPathPfx pre x := by
      obtain ⟨heq, _⟩ := rsplit_append _ _ _ hsplit
      exact Or.inr ⟨snd, heq⟩
    refine ⟨k, hk1, isPathPfx_trans k pre x hk2 hpfx, ?_⟩
    intro k2 hck2 hpk2
    have hne : k2 ≠ x := by
      intro hEq
      subst hEq
      simp [containsKey, hx] at hck2
    exact hk3 k2 hck2 (isPathPfx_trim k2 x pre snd hpk2 hne hsplit)
  | case3 x hx hsplit =>
    intro hwf res hres
    rw [resourceCore_eq, hx, hsplit] at hres
    have hx0 : x = [] := by
      rcases hwf with h0 | ⟨t, ht⟩
      · exact h0
      · subst ht
        have hs := rsplit_isSome_of_slash_head t
        rw [hsplit] at hs
        simp at hs
    subst hx0
    refine ⟨[], hres, isPathPfx_refl [], ?_⟩
    intro k2 _ hpk2
    rcases hpk2 with rfl | ⟨s, hs⟩
    · exact le_refl _
    · simp at hs

/-- C1: `Root::resource` implements longest-path-prefix lookup: for a
well-formed pointer `p` over a well-formed resources map, the returned
resource is registered, its pointer is a path-prefix of `p` — also at the
segment level, so a segment containing an escaped slash (`~1`) is never
mis-trimmed, since the escaped form contains no literal `/` — and no strictly
longer registered pointer is a path-prefix of `p`; when only the root
resource's empty pointer is a path-prefix, that is what is returned. -/
theorem resource_longest_path_pfx (r : Root) (p : List Char) (res : Resource)
    (hwf : WfPtr p)
    (hkeys : ∀ k res2, getRes r.resources k = some res2 → res2.ptr = k ∧ WfPtr k)
    (h : r.resource p = some res) :
    containsKey r.resources res.ptr = true ∧
    IsPathPfx res.ptr p ∧
    (∃ t, ptrSegs p = ptrSegs res.ptr ++ t) ∧
    (∀ k, containsKey r.resources k = true → IsPathPfx k p → k.length ≤ res.ptr.length) := by
  obtain ⟨k, hk1, hk2, hk3⟩ := resourceCore_longest r.resources p hwf res h
  obtain ⟨hptr, hwfk⟩ := hkeys k res hk1
  subst hptr
  exact ⟨by simp [containsKey, hk1], hk2, segs_of_pathPfx res.ptr p hwfk hk2, hk3⟩

/-- Witness for C1: looking up `/a~1b/c` in the concrete root returns the
resource registered at `/a~1b` — whose single segment contains the escaped
slash `~1` — as the longest registered path-prefix. -/
theorem resource_longest_path_pfx_witness :
    containsKey rootEx.resources subResEx.ptr = true ∧
    IsPathPfx subResEx.ptr ("/a~1b/c".data) ∧
    (∃ t, ptrSegs ("/a~1b/c".data) = ptrSegs subResEx.ptr ++ t) ∧
    (∀ k, containsKey rootEx.resources k = true → IsPathPfx k ("/a~1b/c".data) →
      k.length ≤ subResEx.ptr.length) := by
  have hwf : WfPtr ("/a~1b/c".data) := Or.inr ⟨"a~1b/c".data, by decide⟩
  have hkeys : ∀ k res2, getRes rootEx.resources k = some res2 → res2.ptr = k ∧ WfPtr k := by
    intro k res2 h
    simp only [rootEx, getRes] at h
    split_ifs at h with h1 h2
    · injection h with he
      subst he
      subst h1
      exact ⟨by decide, Or.inl rfl⟩
    · injection h with he
      subst he
      subst h2
      exact ⟨by decide, Or.inr ⟨"a~1b".data, by decide⟩⟩
  have hres : rootEx.resource ("/a~1b/c".data) = some subResEx := by
    show resourceCore _ _ = _
    rw [resourceCore_eq]
    rw [show getRes rootEx.resources ("/a~1b/c".data) = none from by decide]
    rw [show rsplitOnceSlash ("/a~1b/c".data) = some ("/a~1b".data, "c".data) from by decide]
    simp only []
    rw [resourceCore_eq]
    rw [show getRes rootEx.resources ("/a~1b".data) = some subResEx from by decide]
  exact resource_longest_path_pfx rootEx ("/a~1b/c".data) subResEx hwf hkeys hres

/-- Counterexample for C5: on `docC5` at `/a`, resource collection succeeds and
inserts the embedded resource `/a/items`, after which anchor collection fails
on the malformed `$anchor`; `add_subschema` returns the error with the freshly
inserted resource still present, so the map is not left unchanged. -/
theorem add_subschema_error_partial_state_cex :
    (rootC5.add_subschema docC5 ("/a".data)).snd =
      some (.InvalidAnchor exUrl "/a") ∧
    (rootC5.add_subschema docC5 ("/a".data)).fst.resources ≠ rootC5.resources := by
  have h1 : rootC5.resource ("/a".data) = some (Resource.new [] exUrl) := by
    show resourceCore _ _ = _
    rw [resourceCore_eq]
    rw [show getRes rootC5.resources ("/a".data) = none from by decide]
    rw [show rsplitOnceSlash ("/a".data) = some ([], "a".data) from by decide]
    simp only []
    rw [resourceCore_eq]
    rw [show getRes rootC5.resources [] = some (Resource.new [] exUrl) from by decide]
  have h2 : resourceCore mC5 ("/a".data) = some (Resource.new [] exUrl) := by
    rw [resourceCore_eq]
    rw [show getRes mC5 ("/a".data) = none from by decide]
    rw [show rsplitOnceSlash ("/a".data) = some ([], "a".data) from by decide]
    simp only []
    rw [resourceCore_eq]
    rw [show getRes mC5 [] = some (Resource.new [] exUrl) from by decide]
  have heval : rootC5.add_subschema docC5 ("/a".data) =
      ({ rootC5 with resources := mC5 }, some (.InvalidAnchor exUrl "/a")) := by
    simp only [Root.add_subschema,
      show ptrLookup ("/a".data) docC5 rootC5.url = .ok vC5a from rfl,
      h1,
      show collect_resources rootC5.draft vC5a (Resource.new [] exUrl).id ("/a".data)
        rootC5.url rootC5.resources = (mC5, none) from by decide,
      show containsKey mC5 ("/a".data) = false from by decide,
      h2,
      show getRes mC5 (Resource.new [] exUrl).ptr = some (Resource.new [] exUrl) from by decide,
      show collect_anchors rootC5.draft vC5a ("/a".data) (Resource.new [] exUrl) rootC5.url =
        (Resource.new [] exUrl, some (.InvalidAnchor exUrl "/a")) from by decide,
      show setKey mC5 (Resource.new [] exUrl).ptr (Resource.new [] exUrl) = mC5 from by decide]
    simp
  rw [heval]
  exact ⟨rfl, by decide⟩

/-- C5 amended: atomicity holds for the first phase — when the pointer lookup
itself fails, `add_subschema` reports that error with the resources map
unchanged (later-phase failures may leave resources inserted before the
failure, as the counterexample shows). -/
theorem add_subschema_lookup_error_atomic (r : Root) (doc : Value) (ptr : JsonPointer)
    (e : CompileError) (h : ptrLookup ptr doc r.url = .error e) :
    r.add_subschema doc ptr = (r, some e) := by
  simp only [Root.add_subschema, h]

/-- Witness for the amended C5: a pointer missing from the document fails the
lookup and leaves the root untouched. -/
theorem add_subschema_lookup_error_atomic_witness :
    rootC5.add_subschema docC5 ("/zz".data) =
      (rootC5, some (.JsonPointerNotFound exUrl "/zz")) :=
  add_subschema_lookup_error_atomic rootC5 docC5 ("/zz".data)
    (.JsonPointerNotFound exUrl "/zz") rfl

/-! ## Map lemmas for the idempotence proof -/

theorem containsKey_cons (m : Resources) (q : JsonPointer) (r : Resource) (k : JsonPointer)
    (h : containsKey m k = true) : containsKey ((q, r) :: m) k = true := by
  simp only [containsKey, getRes]
  by_cases hq : q = k
  · simp [hq]
  · simpa [hq, containsKey] using h

theorem getRes_setKey_same (m : Resources) (k : JsonPointer) (v : Resource)
    (h : containsKey m k = true) : getRes (setKey m k v) k = some v := by
  induction m with
  | nil => simp [containsKey, getRes] at h
  | cons hd tl ih =>
    obtain ⟨k2, r2⟩ := hd
    by_cases hk : k2 = k
    · simp [setKey, hk, getRes]
    · simp only [setKey, if_neg hk, getRes, if_neg hk]
      apply ih
      simpa [containsKey, getRes, hk] using h

theorem getRes_setKey_other (m : Resources) (k k2 : JsonPointer) (v : Resource)
    (h : k2 ≠ k) : getRes (setKey m k v) k2 = getRes m k2 := by
  induction m with
  | nil => simp [setKey]
  | cons hd tl ih =>
    obtain ⟨k3, r3⟩ := hd
    by_cases hk : k3 = k
    · subst hk
      have hne : ¬ k3 = k2 := fun hh => h (hh.symm)
      simp [setKey, getRes, hne]
    · simp only [setKey, if_neg hk, getRes]
      by_cases h2 : k3 = k2
      · simp [h2]
      · simp [h2, ih]

theorem setKey_absent (m : Resources) (k : JsonPointer) (v : Resource)
    (h : getRes m k = none) : setKey m k v = m := by
  induction m with
  | nil => simp [setKey]
  | cons hd tl ih =>
    obtain ⟨k2, r2⟩ := hd
    simp only [getRes] at h
    by_cases hk : k2 = k
    · rw [if_pos hk] at h
      cases h
    · rw [if_neg hk] at h
      simp [setKey, hk, ih h]

theorem setKey_self (m : Resources) (k : JsonPointer) (v : Resource)
    (h : getRes m k = some v) : setKey m k v = m := by
  induction m with
  | nil => simp [setKey]
  | cons hd tl ih =>
    obtain ⟨k2, r2⟩ := hd
    simp only [getRes] at h
    by_cases hk : k2 = k
    · rw [if_pos hk] at h
      injection h with he
      simp [setKey, hk, he]
    · rw [if_neg hk] at h
      simp [setKey, hk, ih h]

theorem containsKey_setKey (m : Resources) (k k2 : JsonPointer) (v : Resource) :
    containsKey (setKey m k v) k2 = containsKey m k2 := by
  by_cases h : k2 = k
  · subst h
    cases hc : getRes m k2 with
    | some w =>
      have hck : containsKey m k2 = true := by simp [containsKey, hc]
      simp [containsKey, getRes_setKey_same m k2 v hck, hc]
    | none => rw [setKey_absent m k2 v hc]
  · simp [containsKey, getRes_setKey_other m k k2 v h]

/-- Unfolding equation for `resourceKey` with a non-dependent match. -/
theorem resourceKey_eq (m : Resources) (p : JsonPointer) :
    resourceKey m p =
      match getRes m p with
      | some _ => some p
      | none =>
          match rsplitOnceSlash p with
          | some (pre, _) => resourceKey m pre
          | none => if containsKey m [] then some [] else none := by
  rw [resourceKey]
  cases hg : getRes m p with
  | some res => rfl
  | none =>
    simp only []
    split
    · rename_i pre snd heq
      rw [heq]
    · rename_i heq
      rw [heq]

/-- The resource found by the loop is the value stored at the found key. -/
theorem resourceCore_eq_key (m : Resources) :
    ∀ p, resourceCore m p = (resourceKey m p).bind (fun k => getRes m k) := by
  intro p
  induction p using resourceCore.induct m with
  | case1 x res hx =>
    rw [resourceCore_eq, resourceKey_eq, hx]
    simp [hx]
  | case2 x hx pre snd hsplit ih =>
    rw [resourceCore_eq, resourceKey_eq, hx, hsplit]
    exact ih
  | case3 x hx hsplit =>
    rw [resourceCore_eq, resourceKey_eq, hx, hsplit]
    cases hg : getRes m [] with
    | some w =>
      have hck : containsKey m [] = true := by simp [containsKey, hg]
      simp [hck, hg]
    | none =>
      have hck : containsKey m [] = false := by simp [containsKey, hg]
      simp [hck]

/-- `resourceKey` depends on the map only through which keys are present. -/
theorem resourceKey_keys_congr (m m2 : Resources)
    (h : ∀ k, containsKey m k = containsKey m2 k) :
    ∀ p, resourceKey m p = resourceKey m2 p := by
  intro p
  induction p using resourceCore.induct m with
  | case1 x res hx =>
    have h2 : (getRes m2 x).isSome = true := by
      have := h x
      simp [containsKey, hx] at this
      simpa [containsKey] using this.symm
    rw [resourceKey_eq, resourceKey_eq, hx]
    cases hg2 : getRes m2 x with
    | some w => rfl
    | none => rw [hg2] at h2; cases h2
  | case2 x hx pre snd hsplit ih =>
    have h2 : getRes m2 x = none := by
      have := h x
      simp [containsKey, hx] at this
      cases hg2 : getRes m2 x with
      | none => rfl
      | some w =>
        rw [hg2] at this
        simp at this
    rw [resourceKey_eq, resourceKey_eq, hx, h2, hsplit]
    exact ih
  | case3 x hx hsplit =>
    have h2 : getRes m2 x = none := by
      have := h x
      simp [containsKey, hx] at this
      cases hg2 : getRes m2 x with
      | none => rfl
      | some w =>
        rw [hg2] at this
        simp at this
    rw [resourceKey_eq, resourceKey_eq, hx, h2, hsplit, h []]

/-- Resource collection only adds entries: every key present before the walk
is present afterwards, on the success and the error path alike. -/
theorem collect_mono (d : Draft) :
    (∀ (v : Value) (b : Url) (p : JsonPointer) (u : Url) (m : Resources),
      ∀ k, containsKey m k = true → containsKey (collect_resources d v b p u m).1 k = true) ∧
    (∀ (es : List Value) (b : Url) (p : JsonPointer) (u : Url) (i : Nat) (m : Resources),
      ∀ k, containsKey m k = true → containsKey (collect_elems d es b p u i m).1 k = true) ∧
    (∀ (fs : List (String × Value)) (b : Url) (p : JsonPointer) (u : Url) (m : Resources),
      ∀ k, containsKey m k = true → containsKey (collect_fields d fs b p u m).1 k = true) := by
  refine collect_resources.mutual_induct d
    (fun v b p u m => ∀ k, containsKey m k = true →
      containsKey (collect_resources d v b p u m).1 k = true)
    (fun es b p u i m => ∀ k, containsKey m k = true →
      containsKey (collect_elems d es b p u i m).1 k = true)
    (fun fs b p u m => ∀ k, containsKey m k = true →
      containsKey (collect_fields d fs b p u m).1 k = true)
    ?_ ?_ ?_ ?_ ?_ ?_ ?_ ?_ ?_ ?_ ?_ ?_ ?_
  · intro t b p u m hc k hk
    rw [collect_resources.eq_def, if_pos hc]
    exact hk
  · intro b p u m hnc fields s hlk nb ih k hk
    rw [collect_resources.eq_def, if_neg hnc]
    simp only [hlk]
    exact ih k (containsKey_cons m p _ k hk)
  · intro b p u m hnc fields val hns hlk k hk
    rw [collect_resources.eq_def, if_neg hnc]
    simp only [hlk]
    cases val with
    | str s => exact absurd rfl (hns s)
    | null => exact hk
    | bool x => exact hk
    | num x => exact hk
    | arr x => exact hk
    | obj x => exact hk
  · intro b p u m hnc fields hlk m1 ih k hk
    rw [collect_resources.eq_def, if_neg hnc]
    simp only [hlk]
    refine ih k ?_
    show containsKey (if p = [] then ((p, Resource.new p b) :: m) else m) k = true
    by_cases hp : p = []
    · rw [if_pos hp]
      exact containsKey_cons m p _ k hk
    · rw [if_neg hp]
      exact hk
  · intro b p u m hnc elems m1 ih k hk
    rw [collect_resources.eq_def, if_neg hnc]
    refine ih k ?_
    show containsKey (if p = [] then ((p, Resource.new p b) :: m) else m) k = true
    by_cases hp : p = []
    · rw [if_pos hp]
      exact containsKey_cons m p _ k hk
    · rw [if_neg hp]
      exact hk
  · intro t b u m hobj harr hnc k hk
    rw [collect_resources.eq_def, if_neg hnc]
    cases t with
    | obj x => exact absurd rfl (hobj x)
    | arr x => exact absurd rfl (harr x)
    | null => simpa using containsKey_cons m [] _ k hk
    | bool x => simpa using containsKey_cons m [] _ k hk
    | num x => simpa using containsKey_cons m [] _ k hk
    | str x => simpa using containsKey_cons m [] _ k hk
  · intro t b p u m hnc hp hobj harr k hk
    rw [collect_resources.eq_def, if_neg hnc]
    cases t with
    | obj x => exact absurd rfl (hobj x)
    | arr x => exact absurd rfl (harr x)
    | null => simpa [if_neg hp] using hk
    | bool x => simpa [if_neg hp] using hk
    | num x => simpa [if_neg hp] using hk
    | str x => simpa [if_neg hp] using hk
  · intro b p u i m k hk
    rw [collect_elems.eq_def]
    exact hk
  · intro b p u i m child rest m1 err hchild ih k hk
    rw [collect_elems.eq_def]
    simp only [hchild]
    have hm := ih k hk
    rw [hchild] at hm
    exact hm
  · intro b p u i m child rest m1 hchild ih ihrest k hk
    rw [collect_elems.eq_def]
    simp only [hchild]
    refine ihrest k ?_
    have hm := ih k hk
    rw [hchild] at hm
    exact hm
  · intro b p u m k hk
    rw [collect_fields.eq_def]
    exact hk
  · intro b p u m k2 child rest m1 err hchild ih k hk
    rw [collect_fields.eq_def]
    simp only [hchild]
    have hm := ih k hk
    rw [hchild] at hm
    exact hm
  · intro b p u m k2 child rest m1 hchild ih ihrest k hk
    rw [collect_fields.eq_def]
    simp only [hchild]
    refine ihrest k ?_
    have hm := ih k hk
    rw [hchild] at hm
    exact hm

theorem containsKey_cons_self (m : Resources) (p : JsonPointer) (r : Resource) :
    containsKey ((p, r) :: m) p = true := by
  simp [containsKey, getRes]

/-- After a successful walk, re-running the walk over any map that contains
every key of the first walk's result — under any base URL — changes nothing
and cannot fail: every boundary it would insert is already present, so the
walk stops at the re-visit guards. -/
theorem collect_stable (d : Draft) :
    (∀ (v : Value) (b : Url) (p : JsonPointer) (u : Url) (m : Resources),
      ∀ m2, collect_resources d v b p u m = (m2, none) →
      ∀ (b2 : Url) (M : Resources), (∀ k, containsKey m2 k = true → containsKey M k = true) →
        collect_resources d v b2 p u M = (M, none)) ∧
    (∀ (es : List Value) (b : Url) (p : JsonPointer) (u : Url) (i : Nat) (m : Resources),
      ∀ m2, collect_elems d es b p u i m = (m2, none) →
      ∀ (b2 : Url) (M : Resources), (∀ k, containsKey m2 k = true → containsKey M k = true) →
        collect_elems d es b2 p u i M = (M, none)) ∧
    (∀ (fs : List (String × Value)) (b : Url) (p : JsonPointer) (u : Url) (m : Resources),
      ∀ m2, collect_fields d fs b p u m = (m2, none) →
      ∀ (b2 : Url) (M : Resources), (∀ k, containsKey m2 k = true → containsKey M k = true) →
        collect_fields d fs b2 p u M = (M, none)) := by
  refine collect_resources.mutual_induct d
    (fun v b p u m => ∀ m2, collect_resources d v b p u m = (m2, none) →
      ∀ (b2 : Url) (M : Resources), (∀ k, containsKey m2 k = true → containsKey M k = true) →
        collect_resources d v b2 p u M = (M, none))
    (fun es b p u i m => ∀ m2, collect_elems d es b p u i m = (m2, none) →
      ∀ (b2 : Url) (M : Resources), (∀ k, containsKey m2 k = true → containsKey M k = true) →
        collect_elems d es b2 p u i M = (M, none))
    (fun fs b p u m => ∀ m2, collect_fields d fs b p u m = (m2, none) →
      ∀ (b2 : Url) (M : Resources), (∀ k, containsKey m2 k = true → containsKey M k = true) →
        collect_fields d fs b2 p u M = (M, none))
    ?_ ?_ ?_ ?_ ?_ ?_ ?_ ?_ ?_ ?_ ?_ ?_ ?_
  · intro t b p u m hc m2 hm2 b2 M hM
    rw [collect_resources.eq_def, if_pos hc] at hm2
    injection hm2 with he _
    subst he
    rw [collect_resources.eq_def, if_pos (hM p hc)]
  · intro b p u m hnc fields s hlk nb ih m2 hm2 b2 M hM
    rw [collect_resources.eq_def, if_neg hnc] at hm2
    simp only [hlk] at hm2
    have hp2 : containsKey m2 p = true := by
      have hmono := (collect_mono d).2.2 fields (resolve_url b s) p u
        ((p, Resource.new p (resolve_url b s)) :: m) p (containsKey_cons_self m p _)
      rw [hm2] at hmono
      exact hmono
    rw [collect_resources.eq_def, if_pos (hM p hp2)]
  · intro b p u m hnc fields val hns hlk m2 hm2 b2 M hM
    rw [collect_resources.eq_def, if_neg hnc] at hm2
    simp only [hlk] at hm2
    cases val with
    | str s => exact absurd rfl (hns s)
    | null => simp at hm2
    | bool x => simp at hm2
    | num x => simp at hm2
    | arr x => simp at hm2
    | obj x => simp at hm2
  · intro b p u m hnc fields hlk m1 ih m2 hm2 b2 M hM
    rw [collect_resources.eq_def, if_neg hnc] at hm2
    simp only [hlk] at hm2
    by_cases hMp : containsKey M p = true
    · rw [collect_resources.eq_def, if_pos hMp]
    · have hp : ¬ p = [] := by
        intro h0
        subst h0
        have hself : containsKey (if ([] : List Char) = [] then
            (([] : List Char), Resource.new [] b) :: m else m) [] = true := by
          rw [if_pos rfl]
          exact containsKey_cons_self m [] _
        have hmono := (collect_mono d).2.2 fields b [] u _ [] hself
        rw [hm2] at hmono
        exact hMp (hM [] hmono)
      rw [collect_resources.eq_def, if_neg hMp]
      simp only [hlk]
      rw [if_neg hp]
      exact ih m2 hm2 b2 M hM
  · intro b p u m hnc elems m1 ih m2 hm2 b2 M hM
    rw [collect_resources.eq_def, if_neg hnc] at hm2
    simp only [] at hm2
    by_cases hMp : containsKey M p = true
    · rw [collect_resources.eq_def, if_pos hMp]
    · have hp : ¬ p = [] := by
        intro h0
        subst h0
        rw [if_pos rfl] at hm2
        have hmono := (collect_mono d).2.1 elems b [] u 0
          ((([] : List Char), Resource.new [] b) :: m) [] (containsKey_cons_self m [] _)
        rw [hm2] at hmono
        exact hMp (hM [] hmono)
      rw [collect_resources.eq_def, if_neg hMp]
      simp only []
      rw [if_neg hp]
      exact ih m2 hm2 b2 M hM
  · intro t b u m hobj harr hnc m2 hm2 b2 M hM
    rw [collect_resources.eq_def, if_neg hnc] at hm2
    have hp2 : containsKey m2 [] = true := by
      cases t with
      | obj x => exact absurd rfl (hobj x)
      | arr x => exact absurd rfl (harr x)
      | null =>
        simp at hm2
        subst hm2
        exact containsKey_cons_self m [] _
      | bool x =>
        simp at hm2
        subst hm2
        exact containsKey_cons_self m [] _
      | num x =>
        simp at hm2
        subst hm2
        exact containsKey_cons_self m [] _
      | str x =>
        simp at hm2
        subst hm2
        exact containsKey_cons_self m [] _
    rw [collect_resources.eq_def, if_pos (hM [] hp2)]
  · intro t b p u m hnc hp hobj harr m2 hm2 b2 M hM
    by_cases hMp : containsKey M p = true
    · rw [collect_resources.eq_def, if_pos hMp]
    · rw [collect_resources.eq_def, if_neg hMp]
      cases t with
      | obj x => exact absurd rfl (hobj x)
      | arr x => exact absurd rfl (harr x)
      | null =>
        simp only []
        rw [if_neg hp]
      | bool x =>
        simp only []
        rw [if_neg hp]
      | num x =>
        simp only []
        rw [if_neg hp]
      | str x =>
        simp only []
        rw [if_neg hp]
  · intro b p u i m m2 hm2 b2 M hM
    rw [collect_elems.eq_def] at hm2
    rw [collect_elems.eq_def]
  · intro b p u i m child rest m1 err hchild ih m2 hm2 b2 M hM
    rw [collect_elems.eq_def] at hm2
    simp only [hchild] at hm2
    simp at hm2
  · intro b p u i m child rest m1 hchild ih ihrest m2 hm2 b2 M hM
    rw [collect_elems.eq_def] at hm2
    simp only [hchild] at hm2
    have hkeys1 : ∀ k, containsKey m1 k = true → containsKey M k = true := by
      intro k hk
      have hmono := (collect_mono d).2.1 rest b p u (i + 1) m1 k hk
      rw [hm2] at hmono
      exact hM k hmono
    have hchild2 := ih m1 hchild b2 M hkeys1
    rw [collect_elems.eq_def]
    simp only [hchild2]
    exact ihrest m2 hm2 b2 M hM
  · intro b p u m m2 hm2 b2 M hM
    rw [collect_fields.eq_def] at hm2
    rw [collect_fields.eq_def]
  · intro b p u m k2 child rest m1 err hchild ih m2 hm2 b2 M hM
    rw [collect_fields.eq_def] at hm2
    simp only [hchild] at hm2
    simp at hm2
  · intro b p u m k2 child rest m1 hchild ih ihrest m2 hm2 b2 M hM
    rw [collect_fields.eq_def] at hm2
    simp only [hchild] at hm2
    have hkeys1 : ∀ k, containsKey m1 k = true → containsKey M k = true := by
      intro k hk
      have hmono := (collect_mono d).2.2 rest b p u m1 k hk
      rw [hm2] at hmono
      exact hM k hmono
    have hchild2 := ih m1 hchild b2 M hkeys1
    rw [collect_fields.eq_def]
    simp only [hchild2]
    exact ihrest m2 hm2 b2 M hM

/-- A successful `add_anchor` records the binding, changes nothing but the
anchors map, and preserves every existing binding. -/
theorem lookupAnchor_add (res : Resource) (n : String) (p : JsonPointer) (u : Url)
    (r2 : Resource) (h : add_anchor res n p u = .ok r2) :
    lookupAnchor r2.anchors n = some p ∧ r2.ptr = res.ptr ∧ r2.id = res.id ∧
    r2.dynamic_anchors = res.dynamic_anchors ∧
    (∀ x q, lookupAnchor res.anchors x = some q → lookupAnchor r2.anchors x = some q) := by
  unfold add_anchor at h
  cases hl : lookupAnchor res.anchors n with
  | none =>
    rw [hl] at h
    injection h with he
    subst he
    refine ⟨by simp [lookupAnchor], rfl, rfl, rfl, ?_⟩
    intro x q hx
    simp only [lookupAnchor]
    by_cases hxn : n = x
    · subst hxn
      rw [hl] at hx
      cases hx
    · rw [if_neg hxn]
      exact hx
  | some q0 =>
    rw [hl] at h
    simp only [] at h
    by_cases hq : q0 = p
    · rw [if_pos hq] at h
      injection h with he
      subst he
      subst hq
      exact ⟨hl, rfl, rfl, rfl, fun x q hx => hx⟩
    · rw [if_neg hq] at h
      cases h

/-- Re-recording an already-recorded binding is accepted and is a no-op. -/
theorem add_anchor_of_lookup (res : Resource) (n : String) (p : JsonPointer) (u : Url)
    (h : lookupAnchor res.anchors n = some p) : add_anchor res n p u = .ok res := by
  unfold add_anchor
  rw [h]
  simp

theorem add_anchor_idem (res : Resource) (n : String) (p : JsonPointer) (u : Url)
    (r2 : Resource) (h : add_anchor res n p u = .ok r2) :
    add_anchor r2 n p u = .ok r2 :=
  add_anchor_of_lookup r2 n p u (lookupAnchor_add res n p u r2 h).1

/-- A successful anchor collection changes neither the resource's pointer nor
its id, and running it again on its own result is a no-op that cannot fail:
every binding it would record is already recorded with the same pointer. -/
theorem collect_anchors_spec (d : Draft) (v : Value) (p : JsonPointer) (res : Resource)
    (u : Url) (res2 : Resource) (h : collect_anchors d v p res u = (res2, none)) :
    res2.ptr = res.ptr ∧ res2.id = res.id ∧
    collect_anchors d v p res2 u = (res2, none) := by
  cases v with
  | null =>
    unfold collect_anchors at h
    injection h with he _
    subst he
    exact ⟨rfl, rfl, rfl⟩
  | bool x =>
    unfold collect_anchors at h
    injection h with he _
    subst he
    exact ⟨rfl, rfl, rfl⟩
  | num x =>
    unfold collect_anchors at h
    injection h with he _
    subst he
    exact ⟨rfl, rfl, rfl⟩
  | str x =>
    unfold collect_anchors at h
    injection h with he _
    subst he
    exact ⟨rfl, rfl, rfl⟩
  | arr x =>
    unfold collect_anchors at h
    injection h with he _
    subst he
    exact ⟨rfl, rfl, rfl⟩
  | obj fields =>
    unfold collect_anchors at h
    simp only [] at h
    by_cases hv19 : d.version < 2019
    · rw [if_pos hv19] at h
      simp only [] at h
      cases hD : lookupField fields "$dynamicAnchor" with
      | none =>
        rw [hD] at h
        injection h with he _
        subst he
        refine ⟨rfl, rfl, ?_⟩
        unfold collect_anchors
        simp only []
        rw [if_pos hv19]
        simp only []
        rw [hD]
      | some dval =>
        rw [hD] at h
        cases dval with
        | str s =>
          have hv20 : d.version < 2020 := by omega
          simp only [] at h
          rw [if_pos hv20] at h
          simp at h
        | null => simp at h
        | bool x => simp at h
        | num x => simp at h
        | arr x => simp at h
        | obj x => simp at h
    · rw [if_neg hv19] at h
      cases hA : lookupField fields "$anchor" with
      | none =>
        rw [hA] at h
        simp only [] at h
        cases hD : lookupField fields "$dynamicAnchor" with
        | none =>
          rw [hD] at h
          injection h with he _
          subst he
          refine ⟨rfl, rfl, ?_⟩
          unfold collect_anchors
          simp only []
          rw [if_neg hv19, hA]
          simp only []
          rw [hD]
        | some dval =>
          rw [hD] at h
          cases dval with
          | str s =>
            by_cases hv20 : d.version < 2020
            · simp only [] at h
              rw [if_pos hv20] at h
              simp at h
            · simp only [] at h
              rw [if_neg hv20] at h
              cases haddD : add_anchor res s p u with
              | error e =>
                rw [haddD] at h
                simp at h
              | ok resD =>
                rw [haddD] at h
                simp only [] at h
                obtain ⟨hlD, hptrD, hidD, hdynD, hpresD⟩ :=
                  lookupAnchor_add res s p u resD haddD
                by_cases hdc : resD.dynamic_anchors.contains s = true
                · rw [if_pos hdc] at h
                  injection h with he _
                  subst he
                  refine ⟨hptrD, hidD, ?_⟩
                  unfold collect_anchors
                  simp only []
                  rw [if_neg hv19, hA]
                  simp only []
                  rw [hD]
                  simp only []
                  rw [if_neg hv20, add_anchor_of_lookup resD s p u hlD]
                  simp only []
                  rw [if_pos hdc]
                · rw [if_neg hdc] at h
                  injection h with he _
                  subst he
                  refine ⟨hptrD, hidD, ?_⟩
                  unfold collect_anchors
                  simp only []
                  rw [if_neg hv19, hA]
                  simp only []
                  rw [hD]
                  simp only []
                  rw [if_neg hv20,
                    add_anchor_of_lookup { resD with dynamic_anchors := s :: resD.dynamic_anchors }
                      s p u hlD]
                  simp only []
                  rw [if_pos (show (s :: resD.dynamic_anchors).contains s = true by simp)]
          | null => simp at h
          | bool x => simp at h
          | num x => simp at h
          | arr x => simp at h
          | obj x => simp at h
      | some aval =>
        rw [hA] at h
        cases aval with
        | null => simp at h
        | bool x => simp at h
        | num x => simp at h
        | arr x => simp at h
        | obj x => simp at h
        | str s =>
          simp only [] at h
          cases haddA : add_anchor res s p u with
          | error e =>
            rw [haddA] at h
            simp at h
          | ok resS =>
            rw [haddA] at h
            simp only [] at h
            obtain ⟨hlS, hptrS, hidS, hdynS, hpresS⟩ :=
              lookupAnchor_add res s p u resS haddA
            cases hD : lookupField fields "$dynamicAnchor" with
            | none =>
              rw [hD] at h
              injection h with he _
              subst he
              refine ⟨hptrS, hidS, ?_⟩
              unfold collect_anchors
              simp only []
              rw [if_neg hv19, hA]
              simp only []
              rw [add_anchor_of_lookup resS s p u hlS]
              simp only []
              rw [hD]
            | some dval =>
              rw [hD] at h
              cases dval with
              | null => simp at h
              | bool x => simp at h
              | num x => simp at h
              | arr x => simp at h
              | obj x => simp at h
              | str s2 =>
                by_cases hv20 : d.version < 2020
                · simp only [] at h
                  rw [if_pos hv20] at h
                  simp at h
                · simp only [] at h
                  rw [if_neg hv20] at h
                  cases haddD : add_anchor resS s2 p u with
                  | error e =>
                    rw [haddD] at h
                    simp at h
                  | ok resD =>
                    rw [haddD] at h
                    simp only [] at h
                    obtain ⟨hlD, hptrD, hidD, hdynD, hpresD⟩ :=
                      lookupAnchor_add resS s2 p u resD haddD
                    have hlDs : lookupAnchor resD.anchors s = some p := hpresD s p hlS
                    by_cases hdc : resD.dynamic_anchors.contains s2 = true
                    · rw [if_pos hdc] at h
                      injection h with he _
                      subst he
                      refine ⟨hptrD.trans hptrS, hidD.trans hidS, ?_⟩
                      unfold collect_anchors
                      simp only []
                      rw [if_neg hv19, hA]
                      simp only []
                      rw [add_anchor_of_lookup resD s p u hlDs]
                      simp only []
                      rw [hD]
                      simp only []
                      rw [if_neg hv20, add_anchor_of_lookup resD s2 p u hlD]
                      simp only []
                      rw [if_pos hdc]
                    · rw [if_neg hdc] at h
                      injection h with he _
                      subst he
                      refine ⟨hptrD.trans hptrS, hidD.trans hidS, ?_⟩
                      unfold collect_anchors
                      simp only []
                      rw [if_neg hv19, hA]
                      simp only []
                      rw [add_anchor_of_lookup
                        { resD with dynamic_anchors := s2 :: resD.dynamic_anchors } s p u hlDs]
                      simp only []
                      rw [hD]
                      simp only []
                      rw [if_neg hv20,
                        add_anchor_of_lookup
                          { resD with dynamic_anchors := s2 :: resD.dynamic_anchors } s2 p u hlD]
                      simp only []
                      rw [if_pos (show (s2 :: resD.dynamic_anchors).contains s2 = true by simp)]

/-- C6: once `add_subschema(doc, p)` has succeeded, calling it again succeeds
and leaves the root — its resources map, every resource's anchors and dynamic
anchors included — exactly as it was: resource collection stops at the
re-visit guards, and anchor collection re-records identical bindings as
no-ops. -/
theorem add_subschema_idempotent (r : Root) (doc : Value) (p : JsonPointer) (r1 : Root)
    (h : r.add_subschema doc p = (r1, none)) :
    r1.add_subschema doc p = (r1, none) := by
  unfold Root.add_subschema at h
  cases hlk : ptrLookup p doc r.url with
  | error e =>
    rw [hlk] at h
    simp at h
  | ok v =>
    rw [hlk] at h
    simp only [] at h
    cases hres0 : r.resource p with
    | none =>
      rw [hres0] at h
      simp at h
    | some res0 =>
      rw [hres0] at h
      simp only [] at h
      cases hcoll : collect_resources r.draft v res0.id p r.url r.resources with
      | mk m1 e1 =>
        rw [hcoll] at h
        cases e1 with
        | some e => simp at h
        | none =>
          simp only [] at h
          by_cases hc1 : containsKey m1 p = true
          · rw [if_pos hc1] at h
            injection h with hr1 _
            subst hr1
            cases hg : getRes m1 p with
            | none => simp [containsKey, hg] at hc1
            | some x =>
              have hstab := (collect_stable r.draft).1 v res0.id p r.url r.resources m1 hcoll
                x.id m1 (fun k hk => hk)
              unfold Root.add_subschema
              simp only []
              rw [hlk]
              simp only []
              rw [show ({ r with resources := m1 } : Root).resource p = some x from by
                show resourceCore m1 p = some x
                rw [resourceCore_eq, hg]]
              simp only []
              rw [hstab]
              simp only []
              rw [if_pos hc1]
          · rw [if_neg hc1] at h
            cases hok : resourceCore m1 p with
            | none =>
              rw [hok] at h
              simp at h
            | some owner =>
              rw [hok] at h
              simp only [] at h
              cases hgo : getRes m1 owner.ptr with
              | none =>
                rw [hgo] at h
                injection h with hr1 _
                subst hr1
                have hstab := (collect_stable r.draft).1 v res0.id p r.url r.resources m1 hcoll
                  owner.id m1 (fun k hk => hk)
                unfold Root.add_subschema
                simp only []
                rw [hlk]
                simp only []
                rw [show ({ r with resources := m1 } : Root).resource p = some owner from hok]
                simp only []
                rw [hstab]
                simp only []
                rw [if_neg hc1, hok]
                simp only []
                rw [hgo]
              | some ownerRes =>
                rw [hgo] at h
                simp only [] at h
                cases hanch : collect_anchors r.draft v p ownerRes r.url with
                | mk resA eA =>
                  rw [hanch] at h
                  simp only [] at h
                  injection h with hr1 he2
                  subst he2
                  subst hr1
                  obtain ⟨hptrA, hidA, hidem⟩ :=
                    collect_anchors_spec r.draft v p ownerRes r.url resA hanch
                  have hkeys : ∀ k, containsKey (setKey m1 owner.ptr resA) k = containsKey m1 k :=
                    fun k => containsKey_setKey m1 owner.ptr k resA
                  have hcm1 : containsKey m1 owner.ptr = true := by simp [containsKey, hgo]
                  have hgo2 : getRes (setKey m1 owner.ptr resA) owner.ptr = some resA :=
                    getRes_setKey_same m1 owner.ptr resA hcm1
                  have hrk : resourceKey (setKey m1 owner.ptr resA) p = resourceKey m1 p :=
                    resourceKey_keys_congr (setKey m1 owner.ptr resA) m1 hkeys p
                  have hbind := resourceCore_eq_key m1 p
                  rw [hok] at hbind
                  cases hrk1 : resourceKey m1 p with
                  | none =>
                    rw [hrk1] at hbind
                    simp at hbind
                  | some k0 =>
                    rw [hrk1] at hbind
                    simp only [Option.some_bind] at hbind
                    have hg1 : getRes m1 k0 = some owner := hbind.symm
                    have hstab : ∀ b2, collect_resources r.draft v b2 p r.url
                        (setKey m1 owner.ptr resA) = (setKey m1 owner.ptr resA, none) :=
                      fun b2 => (collect_stable r.draft).1 v res0.id p r.url r.resources m1 hcoll
                        b2 (setKey m1 owner.ptr resA)
                        (fun k hk => by rw [hkeys k]; exact hk)
                    have hcP : containsKey (setKey m1 owner.ptr resA) p = false := by
                      rw [hkeys p]
                      cases hcc : containsKey m1 p with
                      | false => rfl
                      | true => exact absurd hcc hc1
                    by_cases hk0 : k0 = owner.ptr
                    · have howner : ownerRes = owner := by
                        rw [hk0] at hg1
                        rw [hgo] at hg1
                        injection hg1
                      have hres2 : resourceCore (setKey m1 owner.ptr resA) p = some resA := by
                        rw [resourceCore_eq_key, hrk, hrk1]
                        simp only [Option.some_bind]
                        rw [hk0]
                        exact hgo2
                      have hptrA2 : resA.ptr = owner.ptr := by
                        rw [hptrA, howner]
                      unfold Root.add_subschema
                      simp only []
                      rw [hlk]
                      simp only []
                      rw [show ({ r with resources := setKey m1 owner.ptr resA } : Root).resource p
                          = some resA from hres2]
                      simp only []
                      rw [hstab resA.id]
                      simp only []
                      rw [if_neg (by rw [hcP]; simp), hres2]
                      simp only []
                      rw [hptrA2, hgo2]
                      simp only []
                      rw [hidem]
                      simp only []
                      rw [setKey_self (setKey m1 owner.ptr resA) owner.ptr resA hgo2]
                    · have hgk0 : getRes (setKey m1 owner.ptr resA) k0 = some owner := by
                        rw [getRes_setKey_other m1 owner.ptr k0 resA hk0]
                        exact hg1
                      have hres2 : resourceCore (setKey m1 owner.ptr resA) p = some owner := by
                        rw [resourceCore_eq_key, hrk, hrk1]
                        simp only [Option.some_bind]
                        exact hgk0
                      unfold Root.add_subschema
                      simp only []
                      rw [hlk]
                      simp only []
                      rw [show ({ r with resources := setKey m1 owner.ptr resA } : Root).resource p
                          = some owner from hres2]
                      simp only []
                      rw [hstab owner.id]
                      simp only []
                      rw [if_neg (by rw [hcP]; simp), hres2]
                      simp only []
                      rw [hgo2]
                      simp only []
                      rw [hidem]
                      simp only []
                      rw [setKey_self (setKey m1 owner.ptr resA) owner.ptr resA hgo2]

/-- Witness for C6: registering `/a` of `docC6` succeeds and records the
anchor `foo`; the repeated call succeeds and returns the identical root. -/
theorem add_subschema_idempotent_witness :
    rootC6after.add_subschema docC6 ("/a".data) = (rootC6after, none) := by
  have h1 : rootC6.resource ("/a".data) = some (Resource.new [] exUrl) := by
    show resourceCore _ _ = _
    rw [resourceCore_eq]
    rw [show getRes rootC6.resources ("/a".data) = none from by decide]
    rw [show rsplitOnceSlash ("/a".data) = some ([], "a".data) from by decide]
    simp only []
    rw [resourceCore_eq]
    rw [show getRes rootC6.resources [] = some (Resource.new [] exUrl) from by decide]
  have h2 : resourceCore rootC6.resources ("/a".data) = some (Resource.new [] exUrl) := h1
  have heval : rootC6.add_subschema docC6 ("/a".data) = (rootC6after, none) := by
    simp only [Root.add_subschema,
      show ptrLookup ("/a".data) docC6 rootC6.url = .ok vC6a from rfl,
      h1,
      show collect_resources rootC6.draft vC6a (Resource.new [] exUrl).id ("/a".data)
        rootC6.url rootC6.resources = (rootC6.resources, none) from by decide,
      show containsKey rootC6.resources ("/a".data) = false from by decide,
      h2,
      show getRes rootC6.resources (Resource.new [] exUrl).ptr =
        some (Resource.new [] exUrl) from by decide,
      show collect_anchors rootC6.draft vC6a ("/a".data) (Resource.new [] exUrl) rootC6.url =
        (resC6, none) from by decide,
      show setKey rootC6.resources (Resource.new [] exUrl).ptr resC6 =
        [(([] : List Char), resC6)] from by decide]
    simp
    rfl
  exact add_subschema_idempotent rootC6 docC6 ("/a".data) rootC6after heval

end JsonSchema
